import Mathlib

/-!
Verification development for the NotionSync repository (src/notion_sync.py).

The Python source is shallowly embedded: Python strings become `List Char`,
Python dicts describing Notion blocks and page properties become inductive
types and association lists, the filesystem touched by `process_markdown`
becomes an explicit map from paths to contents, and the external Notion
client becomes an oracle parameter.  Every definition mirrors the
corresponding source function line by line.
-/

set_option maxHeartbeats 1000000

/-- Python strings are modelled as lists of characters. -/
abbrev Str := List Char

/-- Python `str.rstrip()`: remove trailing whitespace. -/
def rstrip (s : Str) : Str := (s.reverse.dropWhile Char.isWhitespace).reverse

/-- Python `str.lstrip()`: remove leading whitespace. -/
def lstrip (s : Str) : Str := s.dropWhile Char.isWhitespace

/-- Python `str.strip()`: remove leading and trailing whitespace. -/
def strip (s : Str) : Str := rstrip (lstrip s)

/-- Helper for `splitNL`: returns the first line of `s` (up to the first
newline) and the list of remaining lines. -/
def splitNLx : Str → Str × List Str
  | [] => ([], [])
  | c :: rest =>
    if c = '\n' then ([], (splitNLx rest).1 :: (splitNLx rest).2)
    else (c :: (splitNLx rest).1, (splitNLx rest).2)

/-- Python `content.split('\n')` (line 136 of notion_sync.py): split on every
newline, keeping empty segments; the empty string yields `[""]`. -/
def splitNL (s : Str) : List Str := (splitNLx s).1 :: (splitNLx s).2

/-- Python `'\n'.join(lines)` (lines 146, 157, 168, 180, 188). -/
def joinNL : List Str → Str
  | [] => []
  | [l] => l
  | l :: ls => l ++ '\n' :: joinNL ls

/-- A Notion block as built by `markdown_to_blocks` / `create_paragraph_block`:
either a heading of level 1..3 or a paragraph, each carrying the single
rich-text span content string. -/
inductive Block where
  | heading (level : Nat) (text : Str)
  | paragraph (text : Str)
  deriving DecidableEq, Repr

/-- `MarkdownHandler.create_paragraph_block` (lines 192-204): text longer than
2000 characters is replaced by its first 1997 characters followed by `...`. -/
def create_paragraph_block (text : Str) : Block :=
  if 2000 < text.length then Block.paragraph (text.take 1997 ++ ['.', '.', '.'])
  else Block.paragraph text

/-- The loop state of `markdown_to_blocks`: blocks emitted so far and the
pending paragraph buffer `current_paragraph`. -/
structure ConvState where
  blocks : List Block
  para : List Str
  deriving DecidableEq, Repr

/-- Heading marker `"# "`. -/
def hp1 : Str := ['#', ' ']

/-- Heading marker `"## "`. -/
def hp2 : Str := ['#', '#', ' ']

/-- Heading marker `"### "`. -/
def hp3 : Str := ['#', '#', '#', ' ']

/-- One of the three exact heading markers matches the line. -/
def isHeadingLine (l : Str) : Bool :=
  hp1.isPrefixOf l || hp2.isPrefixOf l || hp3.isPrefixOf l

/-- The `if current_paragraph:` flush used before headings, on blank lines and
at end of input (lines 145-147, 156-158, 167-169, 179-181, 187-188). -/
def flushPara (s : ConvState) : ConvState :=
  match s.para with
  | [] => s
  | _ :: _ => ⟨s.blocks ++ [create_paragraph_block (joinNL s.para)], []⟩

/-- The body of the `for line in lines:` loop of `markdown_to_blocks`
(lines 140-184): strip trailing whitespace, then classify the line as a
heading, a blank line or plain paragraph text. -/
def processLine (s : ConvState) (raw : Str) : ConvState :=
  let line := rstrip raw
  if hp1.isPrefixOf line then
    let s1 := flushPara s
    ⟨s1.blocks ++ [Block.heading 1 (line.drop 2)], s1.para⟩
  else if hp2.isPrefixOf line then
    let s1 := flushPara s
    ⟨s1.blocks ++ [Block.heading 2 (line.drop 3)], s1.para⟩
  else if hp3.isPrefixOf line then
    let s1 := flushPara s
    ⟨s1.blocks ++ [Block.heading 3 (line.drop 4)], s1.para⟩
  else if line = [] then flushPara s
  else ⟨s.blocks, s.para ++ [rstrip raw]⟩

/-- `MarkdownHandler.markdown_to_blocks` (lines 130-190). -/
def markdown_to_blocks (content : Str) : List Block :=
  if strip content = [] then []
  else (flushPara ((splitNL content).foldl processLine ⟨[], []⟩)).blocks

/-- Truncation-free flush, used only to state that the converter performs no
truncation on short inputs: identical to `flushPara` except that the pending
paragraph is emitted verbatim. -/
def flushParaNT (s : ConvState) : ConvState :=
  match s.para with
  | [] => s
  | _ :: _ => ⟨s.blocks ++ [Block.paragraph (joinNL s.para)], []⟩

/-- Truncation-free variant of `processLine` (statement-side comparison
definition for the no-truncation property). -/
def processLineNT (s : ConvState) (raw : Str) : ConvState :=
  let line := rstrip raw
  if hp1.isPrefixOf line then
    let s1 := flushParaNT s
    ⟨s1.blocks ++ [Block.heading 1 (line.drop 2)], s1.para⟩
  else if hp2.isPrefixOf line then
    let s1 := flushParaNT s
    ⟨s1.blocks ++ [Block.heading 2 (line.drop 3)], s1.para⟩
  else if hp3.isPrefixOf line then
    let s1 := flushParaNT s
    ⟨s1.blocks ++ [Block.heading 3 (line.drop 4)], s1.para⟩
  else if line = [] then flushParaNT s
  else ⟨s.blocks, s.para ++ [rstrip raw]⟩

/-- Truncation-free variant of `markdown_to_blocks` (statement-side comparison
definition: same scan, but paragraph blocks are never cut). -/
def markdown_to_blocks_noTrunc (content : Str) : List Block :=
  if strip content = [] then []
  else (flushParaNT ((splitNL content).foldl processLineNT ⟨[], []⟩)).blocks

/-- A value of the Notion `properties` dict built in `process_markdown`
(lines 96-109): either the title spans of the `"Name"` property or the
relation id list of the `"Lit Notes"` property. -/
inductive PropValue where
  | titleSpans (spans : List Str)
  | relationIds (ids : List Str)
  deriving DecidableEq, Repr

/-- The `"Name"` property key. -/
def nameKey : Str := "Name".toList

/-- The `"Lit Notes"` property key. -/
def litNotesKey : Str := "Lit Notes".toList

/-- The `properties` dict of `process_markdown` (lines 96-109): always a
`"Name"` title property; a `"Lit Notes"` relation with exactly one id is added
only when `note_id` is not `None`. -/
def build_properties (title : Str) (note_id : Option Str) : List (Str × PropValue) :=
  [(nameKey, PropValue.titleSpans [title])] ++
    (match note_id with
     | some rid => [(litNotesKey, PropValue.relationIds [rid])]
     | none => [])

/-- Python `pathlib.PurePath.stem`: the file name without its last suffix
(a leading dot alone does not start a suffix). -/
def stem (n : Str) : Str :=
  match n.reverse.dropWhile (fun c => c != '.') with
  | [] => n
  | [_] => n
  | _ :: rest => rest.reverse

/-- The argument triple of the `notion.pages.create` call (lines 112-116). -/
structure RemoteRequest where
  parentRef : Str
  properties : List (Str × PropValue)
  children : List Block
  deriving DecidableEq, Repr

/-- The request `process_markdown` sends for a file named `name` with content
`content`: title from the stem of the file name, optional relation, converted
blocks. -/
def build_request (dbId : Str) (name : Str) (content : Str) (note_id : Option Str) :
    RemoteRequest :=
  ⟨dbId, build_properties (stem name) note_id, markdown_to_blocks content⟩

/-- Outcome of the external `notion.pages.create` call. -/
inductive RemoteResult where
  | ok (pageId : Str)
  | err
  deriving DecidableEq, Repr

/-- How one `process_markdown` attempt ended: the read failed, the remote
create raised, the archive step raised, or everything succeeded. -/
inductive ProcStatus where
  | readErr
  | remoteErr
  | disposalErr
  | done
  deriving DecidableEq, Repr

/-- The local filesystem visible to `process_markdown`: file contents by path
and an existing-directory predicate.  Paths are lists of components. -/
structure FS where
  files : List Str → Option Str
  dirs : List Str → Bool

/-- Result of one `process_markdown` attempt. -/
structure ProcResult where
  fs : FS
  status : ProcStatus

/-- `shutil.move(src, dst)` for a file: the destination is overwritten
unconditionally, the source ceases to exist. -/
def moveFile (fs : FS) (src dst : List Str) : FS :=
  { files := fun p => if p = dst then fs.files src else if p = src then none else fs.files p,
    dirs := fs.dirs }

/-- The `archived` directory name. -/
def archivedName : Str := "archived".toList

/-- `MarkdownHandler.process_markdown` (lines 85-128): read the file, build
the request, call the remote create, and only on success make the `archived`
directory (`mkdir(exist_ok=True)` fails if a plain file occupies that path)
and move the file into it.  Every failure is caught and leaves the filesystem
as it was at that point. -/
def process_markdown (dbId : Str) (remote : RemoteRequest → RemoteResult) (fs : FS)
    (parent : List Str) (name : Str) (note_id : Option Str) : ProcResult :=
  match fs.files (parent ++ [name]) with
  | none => ⟨fs, ProcStatus.readErr⟩
  | some content =>
    match remote (build_request dbId name content note_id) with
    | RemoteResult.err => ⟨fs, ProcStatus.remoteErr⟩
    | RemoteResult.ok _ =>
      if fs.dirs (parent ++ [archivedName]) then
        ⟨moveFile fs (parent ++ [name]) (parent ++ [archivedName] ++ [name]), ProcStatus.done⟩
      else
        match fs.files (parent ++ [archivedName]) with
        | some _ => ⟨fs, ProcStatus.disposalErr⟩
        | none =>
          let fs1 : FS :=
            { files := fs.files,
              dirs := fun p => if p = parent ++ [archivedName] then true else fs.dirs p }
          ⟨moveFile fs1 (parent ++ [name]) (parent ++ [archivedName] ++ [name]), ProcStatus.done⟩

/-- Oracle describing the directories visible to `main` at startup: whether a
target directory exists, whether `mkdir(parents=True)` would succeed for it,
and whether it is readable (`os.access(.., os.R_OK)`). -/
structure DirWorld where
  dirExists : Str → Bool
  canCreate : Str → Bool
  readable : Str → Bool

/-- One entry of `sync_targets.json`: a directory and an optional note id. -/
structure SyncTarget where
  directory : Str
  note_id : Option Str

/-- The per-target validation in `main` (lines 218-238): a missing directory
is created (failure to create exits with code 1), then the readability check
runs (failure exits with code 1). -/
def validate_one (w : DirWorld) (d : Str) : Except Nat Unit :=
  if !w.dirExists d && !w.canCreate d then Except.error 1
  else if !w.readable d then Except.error 1
  else Except.ok ()

/-- The validation loop of `main`: each target is validated in order; the
first failure exits; survivors are collected into `dir_note_map` /
`validated_dirs`. -/
def validate_all (w : DirWorld) : List SyncTarget → Except Nat (List (Str × Option Str))
  | [] => Except.ok []
  | t :: rest =>
    match validate_one w t.directory with
    | Except.error n => Except.error n
    | Except.ok _ =>
      match validate_all w rest with
      | Except.error n => Except.error n
      | Except.ok l => Except.ok ((t.directory, t.note_id) :: l)

/-- Startup directory validation in `main` (lines 214-242), including the
final `if not validated_dirs: sys.exit(1)` empty-set check. -/
def startup_validate (w : DirWorld) (targets : List SyncTarget) :
    Except Nat (List (Str × Option Str)) :=
  match validate_all w targets with
  | Except.error n => Except.error n
  | Except.ok l => if l.isEmpty then Except.error 1 else Except.ok l

/-! Basic lemmas about the string primitives. -/

theorem dropWhile_head_not {p : Char → Bool} :
    ∀ {l : Str} {c : Char} {cs : Str}, l.dropWhile p = c :: cs → p c = false := by
  intro l
  induction l with
  | nil => intro c cs h; simp [List.dropWhile] at h
  | cons a as ih =>
    intro c cs h
    rw [List.dropWhile_cons] at h
    by_cases hp : p a
    · rw [if_pos hp] at h; exact ih h
    · rw [if_neg hp] at h
      cases h
      simpa using hp

theorem dropWhile_eq_self_head {p : Char → Bool} {a : Char} {l : Str}
    (h : (a :: l).dropWhile p = a :: l) : p a = false := dropWhile_head_not h

theorem mem_dropWhile_of_not {p : Char → Bool} {c : Char} (hc : p c = false) :
    ∀ {l : Str}, c ∈ l → c ∈ l.dropWhile p := by
  intro l
  induction l with
  | nil => intro h; cases h
  | cons a as ih =>
    intro h
    rw [List.dropWhile_cons]
    by_cases hp : p a
    · rw [if_pos hp]
      rcases List.mem_cons.mp h with rfl | h2
      · rw [hc] at hp; cases hp
      · exact ih h2
    · rw [if_neg hp]; exact h

theorem rstrip_last_not_ws {s ys : Str} {c : Char}
    (h : rstrip s = ys ++ [c]) : c.isWhitespace = false := by
  have h2 : s.reverse.dropWhile Char.isWhitespace = c :: ys.reverse := by
    have := congrArg List.reverse h
    simpa [rstrip] using this
  exact dropWhile_head_not h2

theorem rstrip_eq_self_of_last {ys : Str} {c : Char} (h : c.isWhitespace = false) :
    rstrip (ys ++ [c]) = ys ++ [c] := by
  unfold rstrip
  rw [List.reverse_append]
  simp only [List.reverse_cons, List.reverse_nil, List.nil_append, List.singleton_append,
    List.dropWhile_cons]
  rw [h]
  simp

theorem rstrip_length_le (s : Str) : (rstrip s).length ≤ s.length := by
  unfold rstrip
  rw [List.length_reverse]
  calc (s.reverse.dropWhile Char.isWhitespace).length ≤ s.reverse.length :=
        (List.dropWhile_sublist _).length_le
    _ = s.length := List.length_reverse s

theorem mem_of_mem_rstrip {c : Char} {s : Str} (h : c ∈ rstrip s) : c ∈ s := by
  unfold rstrip at h
  rw [List.mem_reverse] at h
  have := (List.dropWhile_sublist (l := s.reverse) (p := Char.isWhitespace)).mem h
  rwa [List.mem_reverse] at this

theorem rstrip_eq_self_last_not_ws {s ys : Str} {c : Char}
    (hs : rstrip s = s) (h : s = ys ++ [c]) : c.isWhitespace = false :=
  rstrip_last_not_ws (s := s) (by rw [hs, h])

theorem rstrip_idem (s : Str) : rstrip (rstrip s) = rstrip s := by
  rcases List.eq_nil_or_concat (rstrip s) with h | ⟨ys, c, h⟩
  · rw [h]; rfl
  · rw [List.concat_eq_append] at h
    rw [h]
    exact rstrip_eq_self_of_last (rstrip_last_not_ws h)

theorem not_nl_rstrip {s : Str} (h : ¬ '\n' ∈ s) : ¬ '\n' ∈ rstrip s :=
  fun hc => h (mem_of_mem_rstrip hc)

theorem strip_eq_nil_of_all_ws {s : Str} (h : ∀ c ∈ s, c.isWhitespace) : strip s = [] := by
  unfold strip lstrip
  have h1 : s.dropWhile Char.isWhitespace = [] := List.dropWhile_eq_nil_iff.mpr h
  rw [h1]
  rfl

theorem strip_ne_nil_of_mem {c : Char} {s : Str} (hc : c ∈ s)
    (hw : c.isWhitespace = false) : strip s ≠ [] := by
  intro hnil
  have h1 : c ∈ lstrip s := mem_dropWhile_of_not hw hc
  have h2 : c ∈ rstrip (lstrip s) := by
    unfold rstrip
    rw [List.mem_reverse]
    exact mem_dropWhile_of_not hw (List.mem_reverse.mpr h1)
  rw [show rstrip (lstrip s) = strip s from rfl, hnil] at h2
  cases h2

/-! Lemmas about line splitting and joining. -/

theorem splitNL_nil : splitNL [] = [[]] := rfl

theorem splitNL_cons_nl (s : Str) : splitNL ('\n' :: s) = [] :: splitNL s := by
  simp [splitNL, splitNLx]

theorem splitNL_cons_ne {c : Char} (h : c ≠ '\n') (s : Str) :
    splitNL (c :: s) = (c :: (splitNLx s).1) :: (splitNLx s).2 := by
  simp [splitNL, splitNLx, h]

theorem splitNLx_no_nl : ∀ {s : Str}, ¬ '\n' ∈ s → splitNLx s = (s, []) := by
  intro s
  induction s with
  | nil => intro _; rfl
  | cons c cs ih =>
    intro h
    have hc : c ≠ '\n' := fun hc => h (by rw [hc]; exact List.mem_cons_self _ _)
    have hcs : ¬ '\n' ∈ cs := fun hm => h (List.mem_cons_of_mem _ hm)
    simp [splitNLx, hc, ih hcs]

theorem splitNL_no_nl {s : Str} (h : ¬ '\n' ∈ s) : splitNL s = [s] := by
  simp [splitNL, splitNLx_no_nl h]

theorem splitNL_no_mem_nl : ∀ (s : Str), (¬ '\n' ∈ (splitNLx s).1) ∧
    (∀ l ∈ (splitNLx s).2, ¬ '\n' ∈ l) := by
  intro s
  induction s with
  | nil => exact ⟨by simp [splitNLx], by simp [splitNLx]⟩
  | cons c cs ih =>
    by_cases hc : c = '\n'
    · subst hc
      refine ⟨by simp [splitNLx], ?_⟩
      intro l hl
      simp only [splitNLx, if_pos rfl] at hl
      rcases List.mem_cons.mp hl with rfl | hl2
      · exact ih.1
      · exact ih.2 l hl2
    · refine ⟨?_, ?_⟩
      · simp only [splitNLx, if_neg hc]
        intro hmem
        rcases List.mem_cons.mp hmem with h1 | h2
        · exact hc h1.symm
        · exact ih.1 h2
      · intro l hl
        simp only [splitNLx, if_neg hc] at hl
        exact ih.2 l hl

theorem mem_splitNL_no_nl {s l : Str} (h : l ∈ splitNL s) : ¬ '\n' ∈ l := by
  rcases List.mem_cons.mp h with rfl | h2
  · exact (splitNL_no_mem_nl s).1
  · exact (splitNL_no_mem_nl s).2 l h2

theorem splitNL_chars : ∀ (s : Str), (∀ c ∈ (splitNLx s).1, c ∈ s) ∧
    (∀ l ∈ (splitNLx s).2, ∀ c ∈ l, c ∈ s) := by
  intro s
  induction s with
  | nil => exact ⟨by simp [splitNLx], by simp [splitNLx]⟩
  | cons a as ih =>
    by_cases ha : a = '\n'
    · subst ha
      refine ⟨by simp [splitNLx], ?_⟩
      intro l hl c hc
      simp only [splitNLx, if_pos rfl] at hl
      rcases List.mem_cons.mp hl with rfl | hl2
      · exact List.mem_cons_of_mem _ (ih.1 c hc)
      · exact List.mem_cons_of_mem _ (ih.2 l hl2 c hc)
    · refine ⟨?_, ?_⟩
      · intro c hc
        simp only [splitNLx, if_neg ha] at hc
        rcases List.mem_cons.mp hc with rfl | h2
        · exact List.mem_cons_self _ _
        · exact List.mem_cons_of_mem _ (ih.1 c h2)
      · intro l hl c hc
        simp only [splitNLx, if_neg ha] at hl
        exact List.mem_cons_of_mem _ (ih.2 l hl c hc)

theorem mem_splitNL_chars {s l : Str} (h : l ∈ splitNL s) : ∀ c ∈ l, c ∈ s := by
  rcases List.mem_cons.mp h with rfl | h2
  · exact (splitNL_chars s).1
  · exact (splitNL_chars s).2 l h2

theorem joinNL_cons_cons (l q : Str) (ls : List Str) :
    joinNL (l :: q :: ls) = l ++ '\n' :: joinNL (q :: ls) := rfl

theorem joinNL_splitNL : ∀ (s : Str), joinNL (splitNL s) = s := by
  intro s
  induction s with
  | nil => rfl
  | cons c cs ih =>
    by_cases hc : c = '\n'
    · subst hc
      rw [splitNL_cons_nl]
      show joinNL ([] :: splitNL cs) = '\n' :: cs
      rw [show splitNL cs = (splitNLx cs).1 :: (splitNLx cs).2 from rfl, joinNL_cons_cons]
      simp only [List.nil_append]
      rw [← show splitNL cs = (splitNLx cs).1 :: (splitNLx cs).2 from rfl, ih]
    · rw [splitNL_cons_ne hc]
      rcases hxs : (splitNLx cs).2 with _ | ⟨q, ls⟩
      · have hj : joinNL [c :: (splitNLx cs).1] = c :: (splitNLx cs).1 := rfl
        rw [hj]
        have : joinNL (splitNL cs) = cs := ih
        rw [show splitNL cs = (splitNLx cs).1 :: (splitNLx cs).2 from rfl, hxs] at this
        have h1 : joinNL [(splitNLx cs).1] = (splitNLx cs).1 := rfl
        rw [h1] at this
        rw [this]
      · rw [joinNL_cons_cons]
        have : joinNL (splitNL cs) = cs := ih
        rw [show splitNL cs = (splitNLx cs).1 :: (splitNLx cs).2 from rfl, hxs,
          joinNL_cons_cons] at this
        show c :: ((splitNLx cs).1 ++ '\n' :: joinNL (q :: ls)) = c :: cs
        rw [this]

theorem splitNLx_append_nl {l : Str} (h : ¬ '\n' ∈ l) (r : Str) :
    splitNLx (l ++ '\n' :: r) = (l, splitNL r) := by
  induction l with
  | nil => simp [splitNLx, splitNL]
  | cons c cs ih =>
    have hc : c ≠ '\n' := fun hc => h (by rw [hc]; exact List.mem_cons_self _ _)
    have hcs : ¬ '\n' ∈ cs := fun hm => h (List.mem_cons_of_mem _ hm)
    simp [splitNLx, hc, ih hcs]

theorem splitNL_joinNL : ∀ (p : List Str), p ≠ [] → (∀ l ∈ p, ¬ '\n' ∈ l) →
    splitNL (joinNL p) = p := by
  intro p
  induction p with
  | nil => intro h; cases h rfl
  | cons l ls ih =>
    intro _ hmem
    rcases ls with _ | ⟨q, ls'⟩
    · have : joinNL [l] = l := rfl
      rw [this]
      exact splitNL_no_nl (hmem l (List.mem_cons_self _ _))
    · rw [joinNL_cons_cons]
      have hl : ¬ '\n' ∈ l := hmem l (List.mem_cons_self _ _)
      rw [show splitNL (l ++ '\n' :: joinNL (q :: ls')) =
        (splitNLx (l ++ '\n' :: joinNL (q :: ls'))).1 ::
          (splitNLx (l ++ '\n' :: joinNL (q :: ls'))).2 from rfl]
      rw [splitNLx_append_nl hl]
      have := ih (by simp) (fun x hx => hmem x (List.mem_cons_of_mem _ hx))
      simp only
      rw [this]

/-! Lemmas about `List.isPrefixOf` on character lists. -/

theorem isPrefixOf_iff_ex : ∀ (p l : Str), p.isPrefixOf l = true ↔ ∃ t, l = p ++ t := by
  intro p
  induction p with
  | nil => intro l; simp [List.isPrefixOf]
  | cons a as ih =>
    intro l
    cases l with
    | nil =>
      simp [List.isPrefixOf]
    | cons b bs =>
      simp only [List.isPrefixOf, Bool.and_eq_true, beq_iff_eq]
      constructor
      · rintro ⟨rfl, h2⟩
        rcases (ih bs).mp h2 with ⟨t, rfl⟩
        exact ⟨t, rfl⟩
      · rintro ⟨t, ht⟩
        rw [List.cons_append] at ht
        injection ht with h1 h2
        exact ⟨h1.symm, (ih bs).mpr ⟨t, h2⟩⟩

theorem isPrefixOf_length_le {p l : Str} (h : p.isPrefixOf l = true) : p.length ≤ l.length := by
  rcases (isPrefixOf_iff_ex p l).mp h with ⟨t, rfl⟩
  simp

theorem isPrefixOf_append_ge : ∀ (p y b1 b2 : Str), p.length ≤ y.length →
    p.isPrefixOf (y ++ b1) = p.isPrefixOf (y ++ b2) := by
  intro p
  induction p with
  | nil => intro y b1 b2 _; simp [List.isPrefixOf]
  | cons a as ih =>
    intro y b1 b2 hlen
    cases y with
    | nil => simp at hlen
    | cons c ys =>
      simp only [List.cons_append, List.isPrefixOf, List.append_eq]
      rw [ih ys b1 b2 (by simpa using hlen)]

/-! C7: empty or whitespace-only input yields no blocks. -/

/-- Claim C7: for every input that is empty or consists only of whitespace
characters, `markdown_to_blocks` returns the empty block sequence. -/
theorem claim_C7 (t : Str) (h : ∀ c ∈ t, c.isWhitespace) : markdown_to_blocks t = [] := by
  unfold markdown_to_blocks
  rw [if_pos (strip_eq_nil_of_all_ws h)]

/-- Witness for C7 at the spec's two sample inputs: the empty string and a
three-space string both convert to no blocks. -/
theorem claim_C7_witness :
    markdown_to_blocks [] = [] ∧ markdown_to_blocks [' ', ' ', ' '] = [] :=
  ⟨claim_C7 [] (by simp), claim_C7 [' ', ' ', ' '] (by decide)⟩

/-! C3: page properties always hold a title; the relation is present exactly
when a note id is supplied. -/

/-- Claim C3: the request built for a processed file always carries the
`"Name"` title property; when a note id is supplied the `"Lit Notes"` relation
references exactly that one id, and when none is supplied the relation key is
absent from the association list altogether. -/
theorem claim_C3 (dbId name content : Str) (nid : Option Str) :
    (build_request dbId name content nid).properties.lookup nameKey =
      some (PropValue.titleSpans [stem name])
    ∧ (∀ rid, nid = some rid →
        (build_request dbId name content nid).properties.lookup litNotesKey =
          some (PropValue.relationIds [rid]))
    ∧ (nid = none →
        (build_request dbId name content nid).properties.lookup litNotesKey = none) := by
  refine ⟨?_, ?_, ?_⟩
  · cases nid <;> simp [build_request, build_properties, List.lookup]
  · rintro rid rfl
    have hne : (litNotesKey == nameKey) = false := by decide
    simp [build_request, build_properties, List.lookup, hne]
  · rintro rfl
    have hne : (litNotesKey == nameKey) = false := by decide
    simp [build_request, build_properties, List.lookup, hne]

/-- Witness for C3 at concrete inputs: with a supplied note id the relation
property holds exactly that id, and with no note id the relation key is
absent. -/
theorem claim_C3_witness :
    (build_request ['d'] ['n', '.', 'm', 'd'] ['x'] (some ['r'])).properties.lookup
        litNotesKey = some (PropValue.relationIds [['r']])
    ∧ (build_request ['d'] ['n', '.', 'm', 'd'] ['x'] none).properties.lookup
        litNotesKey = none
    ∧ (build_request ['d'] ['n', '.', 'm', 'd'] ['x'] none).properties.lookup
        nameKey = some (PropValue.titleSpans [['n']]) :=
  ⟨(claim_C3 ['d'] ['n', '.', 'm', 'd'] ['x'] (some ['r'])).2.1 ['r'] rfl,
   (claim_C3 ['d'] ['n', '.', 'm', 'd'] ['x'] none).2.2 rfl,
   by
    have h := (claim_C3 ['d'] ['n', '.', 'm', 'd'] ['x'] none).1
    rw [h]
    decide⟩

/-! C2: no disposal before the remote create succeeds. -/

/-- Claim C2: within one processing attempt, if the remote create call fails,
the attempt aborts: the filesystem is completely unchanged, the local file
still exists with its original content, and the attempt ends in the
remote-error state, so no disposal ever precedes a successful remote
creation. -/
theorem claim_C2 (dbId : Str) (remote : RemoteRequest → RemoteResult) (fs : FS)
    (parent : List Str) (name : Str) (nid : Option Str) (content : Str)
    (hread : fs.files (parent ++ [name]) = some content)
    (hfail : remote (build_request dbId name content nid) = RemoteResult.err) :
    (process_markdown dbId remote fs parent name nid).fs = fs
    ∧ (process_markdown dbId remote fs parent name nid).fs.files (parent ++ [name]) =
        some content
    ∧ (process_markdown dbId remote fs parent name nid).status = ProcStatus.remoteErr := by
  have hres : process_markdown dbId remote fs parent name nid = ⟨fs, ProcStatus.remoteErr⟩ := by
    simp only [process_markdown, hread, hfail]
  rw [hres]
  exact ⟨rfl, hread, rfl⟩

/-- Witness for C2: a concrete one-file filesystem with an always-failing
remote call keeps the file and reports the remote error. -/
theorem claim_C2_witness :
    (process_markdown [] (fun _ => RemoteResult.err)
        ⟨fun p => if p = [['a']] then some ['x'] else none, fun _ => false⟩
        [] ['a'] none).fs.files [['a']] = some ['x']
    ∧ (process_markdown [] (fun _ => RemoteResult.err)
        ⟨fun p => if p = [['a']] then some ['x'] else none, fun _ => false⟩
        [] ['a'] none).status = ProcStatus.remoteErr := by
  have h := claim_C2 [] (fun _ => RemoteResult.err)
      ⟨fun p => if p = [['a']] then some ['x'] else none, fun _ => false⟩
      [] ['a'] none ['x'] (by simp) rfl
  exact ⟨by simpa using h.2.1, h.2.2⟩

/-! C8: successful archive disposal. -/

/-- Claim C8: after a successful archive disposal (file read succeeded, the
remote create succeeded, and no plain file blocks the `archived` path), the
original path no longer exists, the `archived` subdirectory exists under the
parent (created if it was missing), and a file with the same name and
identical content exists under it. -/
theorem claim_C8 (dbId : Str) (remote : RemoteRequest → RemoteResult) (fs : FS)
    (parent : List Str) (name : Str) (nid : Option Str) (content pid : Str)
    (hread : fs.files (parent ++ [name]) = some content)
    (hok : remote (build_request dbId name content nid) = RemoteResult.ok pid)
    (hnof : fs.files (parent ++ [archivedName]) = none) :
    (process_markdown dbId remote fs parent name nid).fs.files (parent ++ [name]) = none
    ∧ (process_markdown dbId remote fs parent name nid).fs.dirs
        (parent ++ [archivedName]) = true
    ∧ (process_markdown dbId remote fs parent name nid).fs.files
        (parent ++ [archivedName] ++ [name]) = some content
    ∧ (process_markdown dbId remote fs parent name nid).status = ProcStatus.done := by
  have hne1 : parent ++ [name] ≠ parent ++ [archivedName] ++ [name] := by
    intro h
    have := congrArg List.length h
    simp at this
  by_cases hd : fs.dirs (parent ++ [archivedName]) = true
  · have hres : process_markdown dbId remote fs parent name nid =
        ⟨moveFile fs (parent ++ [name]) (parent ++ [archivedName] ++ [name]),
          ProcStatus.done⟩ := by
      simp only [process_markdown, hread, hok, hd, if_true]
    rw [hres]
    refine ⟨?_, hd, ?_, rfl⟩
    · simp [moveFile, hne1]
    · simp [moveFile, hread]
  · have hdf : fs.dirs (parent ++ [archivedName]) = false := by
      cases h : fs.dirs (parent ++ [archivedName])
      · rfl
      · exact absurd h hd
    have hres : process_markdown dbId remote fs parent name nid =
        ⟨moveFile
            { files := fs.files,
              dirs := fun p => if p = parent ++ [archivedName] then true else fs.dirs p }
            (parent ++ [name]) (parent ++ [archivedName] ++ [name]),
          ProcStatus.done⟩ := by
      simp only [process_markdown, hread, hok, hdf, hnof, Bool.false_eq_true, if_false]
    rw [hres]
    refine ⟨?_, ?_, ?_, rfl⟩
    · simp [moveFile, hne1]
    · simp [moveFile]
    · simp [moveFile, hread]

/-- Witness for C8: a concrete one-file filesystem, a succeeding remote call;
afterwards the file sits under `archived/` with its content and the original
path is gone. -/
theorem claim_C8_witness :
    (process_markdown [] (fun _ => RemoteResult.ok ['p'])
        ⟨fun p => if p = [['t']] then some ['x'] else none, fun _ => false⟩
        [] ['t'] none).fs.files [['t']] = none
    ∧ (process_markdown [] (fun _ => RemoteResult.ok ['p'])
        ⟨fun p => if p = [['t']] then some ['x'] else none, fun _ => false⟩
        [] ['t'] none).fs.dirs [archivedName] = true
    ∧ (process_markdown [] (fun _ => RemoteResult.ok ['p'])
        ⟨fun p => if p = [['t']] then some ['x'] else none, fun _ => false⟩
        [] ['t'] none).fs.files [archivedName, ['t']] = some ['x'] := by
  have h := claim_C8 [] (fun _ => RemoteResult.ok ['p'])
      ⟨fun p => if p = [['t']] then some ['x'] else none, fun _ => false⟩
      [] ['t'] none ['x'] ['p'] (by simp) rfl (by simp [archivedName])
  exact ⟨by simpa using h.1, by simpa using h.2.1, by simpa using h.2.2.1⟩

/-! C9: startup directory validation. -/

theorem validate_one_err_one (w : DirWorld) (d : Str) (n : Nat)
    (h : validate_one w d = Except.error n) : n = 1 := by
  unfold validate_one at h
  split at h
  · injection h with h1
    exact h1.symm
  · split at h
    · injection h with h1
      exact h1.symm
    · cases h

theorem validate_one_fail (w : DirWorld) (d : Str)
    (h : (w.dirExists d = false ∧ w.canCreate d = false) ∨ w.readable d = false) :
    validate_one w d = Except.error 1 := by
  unfold validate_one
  rcases h with ⟨h1, h2⟩ | h3
  · rw [h1, h2]
    rfl
  · by_cases hc : (!w.dirExists d && !w.canCreate d) = true
    · rw [if_pos hc]
    · rw [if_neg hc, h3]
      rfl

theorem validate_all_fail (w : DirWorld) :
    ∀ targets : List SyncTarget,
      (∃ t ∈ targets, validate_one w t.directory = Except.error 1) →
      validate_all w targets = Except.error 1 := by
  intro targets
  induction targets with
  | nil =>
    rintro ⟨t, ht, _⟩
    cases ht
  | cons t rest ih =>
    rintro ⟨t', ht', herr⟩
    rcases List.mem_cons.mp ht' with rfl | hmem
    · simp only [validate_all, herr]
    · cases h1 : validate_one w t.directory with
      | error n =>
        have hn := validate_one_err_one w t.directory n h1
        subst hn
        simp only [validate_all, h1]
      | ok u =>
        simp only [validate_all, h1, ih ⟨t', hmem, herr⟩]

/-- Claim C9: at startup, a target directory whose creation would fail (it
does not exist and cannot be created) or which exists but is unreadable makes
the process exit with code 1; an empty resolved target set also exits with
code 1 before watching starts; a missing but creatable, readable directory
passes validation (it is created). -/
theorem claim_C9 (w : DirWorld) (targets : List SyncTarget) :
    ((∃ t ∈ targets,
        (w.dirExists t.directory = false ∧ w.canCreate t.directory = false)
        ∨ (w.dirExists t.directory = true ∧ w.readable t.directory = false)) →
      startup_validate w targets = Except.error 1)
    ∧ (targets = [] → startup_validate w targets = Except.error 1)
    ∧ (∀ d, w.dirExists d = false → w.canCreate d = true → w.readable d = true →
        validate_one w d = Except.ok ()) := by
  refine ⟨?_, ?_, ?_⟩
  · rintro ⟨t, ht, hcond⟩
    have herr : validate_one w t.directory = Except.error 1 := by
      apply validate_one_fail
      rcases hcond with h1 | ⟨_, h2⟩
      · exact Or.inl h1
      · exact Or.inr h2
    unfold startup_validate
    rw [validate_all_fail w targets ⟨t, ht, herr⟩]
  · rintro rfl
    rfl
  · intro d h1 h2 h3
    simp [validate_one, h1, h2, h3]

/-- Witness for C9: a world in which the single target directory neither
exists nor can be created makes startup exit with code 1. -/
theorem claim_C9_witness :
    startup_validate ⟨fun _ => false, fun _ => false, fun _ => true⟩
      [⟨['d'], none⟩] = Except.error 1 :=
  (claim_C9 ⟨fun _ => false, fun _ => false, fun _ => true⟩ [⟨['d'], none⟩]).1
    ⟨⟨['d'], none⟩, by simp, Or.inl ⟨rfl, rfl⟩⟩

/-! C4: exact heading-marker matching. -/

theorem flushPara_para (s : ConvState) : (flushPara s).para = [] := by
  rcases h : s.para with _ | ⟨a, l⟩
  · simp [flushPara, h]
  · simp [flushPara, h]

theorem sw1_hash_hash (t : Str) : hp1.isPrefixOf ('#' :: '#' :: t) = false := by
  simp [hp1, List.isPrefixOf]

theorem sw2_three_hash (t : Str) : hp2.isPrefixOf ('#' :: '#' :: '#' :: t) = false := by
  simp [hp2, List.isPrefixOf]

theorem sw3_four_hash (t : Str) : hp3.isPrefixOf ('#' :: '#' :: '#' :: '#' :: t) = false := by
  simp [hp3, List.isPrefixOf]

/-- Helper for C4: a line that is non-blank and matches none of the three
heading markers is appended to the paragraph buffer as plain text. -/
theorem processLine_plain (s : ConvState) (raw : Str)
    (h0 : rstrip raw ≠ [])
    (h1 : hp1.isPrefixOf (rstrip raw) = false)
    (h2 : hp2.isPrefixOf (rstrip raw) = false)
    (h3 : hp3.isPrefixOf (rstrip raw) = false) :
    processLine s raw = ⟨s.blocks, s.para ++ [rstrip raw]⟩ := by
  simp only [processLine, h1, h2, h3, Bool.false_eq_true, if_false, if_neg h0]

/-- Helper for C4: the three heading markers are all refuted when the leading
run of `k ≥ 1` hashes is not followed by a space (it is followed by nothing or
by a non-space non-hash character). -/
theorem hash_run_no_space (k : Nat) (rest : Str) (hk : 1 ≤ k)
    (hsp : rest.head? ≠ some ' ') (hha : rest.head? ≠ some '#') :
    hp1.isPrefixOf (List.replicate k '#' ++ rest) = false
    ∧ hp2.isPrefixOf (List.replicate k '#' ++ rest) = false
    ∧ hp3.isPrefixOf (List.replicate k '#' ++ rest) = false := by
  have hrest : ∀ c r, rest = c :: r →
      (c ≠ ' ' ∧ c ≠ '#' ∧ (' ' : Char) ≠ c ∧ ('#' : Char) ≠ c) := by
    intro c r hr
    subst hr
    have h1 : c ≠ ' ' := by
      intro hc
      exact hsp (by rw [hc]; rfl)
    have h2 : c ≠ '#' := by
      intro hc
      exact hha (by rw [hc]; rfl)
    exact ⟨h1, h2, Ne.symm h1, Ne.symm h2⟩
  have hk4 : k = 1 ∨ k = 2 ∨ k = 3 ∨ 4 ≤ k := by omega
  rcases hk4 with rfl | rfl | rfl | h4
  · rcases rest with _ | ⟨c, r⟩
    · refine ⟨by decide, by decide, by decide⟩
    · obtain ⟨hc1, hc2, hc3, hc4⟩ := hrest c r rfl
      refine ⟨?_, ?_, ?_⟩
      · simp [hp1, List.isPrefixOf, hc1, hc2, hc3, hc4]
      · simp [hp2, List.isPrefixOf, hc1, hc2, hc3, hc4]
      · simp [hp3, List.isPrefixOf, hc1, hc2, hc3, hc4]
  · rcases rest with _ | ⟨c, r⟩
    · refine ⟨by decide, by decide, by decide⟩
    · obtain ⟨hc1, hc2, hc3, hc4⟩ := hrest c r rfl
      refine ⟨?_, ?_, ?_⟩
      · exact sw1_hash_hash _
      · simp [hp2, List.isPrefixOf, hc1, hc2, hc3, hc4]
      · simp [hp3, List.isPrefixOf, hc1, hc2, hc3, hc4]
  · rcases rest with _ | ⟨c, r⟩
    · refine ⟨by decide, by decide, by decide⟩
    · obtain ⟨hc1, hc2, hc3, hc4⟩ := hrest c r rfl
      refine ⟨?_, ?_, ?_⟩
      · exact sw1_hash_hash _
      · exact sw2_three_hash _
      · simp [hp3, List.isPrefixOf, hc1, hc2, hc3, hc4]
  · obtain ⟨m, rfl⟩ : ∃ m, k = m + 4 := ⟨k - 4, by omega⟩
    have hrepl : List.replicate (m + 4) '#' ++ rest =
        '#' :: '#' :: '#' :: '#' :: (List.replicate m '#' ++ rest) := by
      have : List.replicate (m + 4) '#' = List.replicate 4 '#' ++ List.replicate m '#' := by
        rw [← List.replicate_add]
        norm_num [Nat.add_comm]
      rw [this]
      rfl
    rw [hrepl]
    exact ⟨sw1_hash_hash _, sw2_three_hash _, sw3_four_hash _⟩

/-- Claim C4: a (trailing-whitespace-stripped) line is converted as a heading
exactly when it begins with the marker `"# "`, `"## "` or `"### "`, yielding a
heading of level 1, 2 or 3 with the rest of the line as text; a non-blank line
beginning with `'#'` that matches none of these markers — in particular one
beginning with four or more hashes, or whose leading hash run is not followed
by a space — is accumulated as plain paragraph text. -/
theorem claim_C4 (s : ConvState) (raw : Str) :
    (hp1.isPrefixOf (rstrip raw) = true →
      processLine s raw =
        ⟨(flushPara s).blocks ++ [Block.heading 1 ((rstrip raw).drop 2)], []⟩)
    ∧ (hp2.isPrefixOf (rstrip raw) = true →
      processLine s raw =
        ⟨(flushPara s).blocks ++ [Block.heading 2 ((rstrip raw).drop 3)], []⟩)
    ∧ (hp3.isPrefixOf (rstrip raw) = true →
      processLine s raw =
        ⟨(flushPara s).blocks ++ [Block.heading 3 ((rstrip raw).drop 4)], []⟩)
    ∧ (rstrip raw ≠ [] →
        hp1.isPrefixOf (rstrip raw) = false →
        hp2.isPrefixOf (rstrip raw) = false →
        hp3.isPrefixOf (rstrip raw) = false →
      processLine s raw = ⟨s.blocks, s.para ++ [rstrip raw]⟩)
    ∧ (List.replicate 4 '#' |>.isPrefixOf (rstrip raw) →
      processLine s raw = ⟨s.blocks, s.para ++ [rstrip raw]⟩)
    ∧ (∀ k rest, 1 ≤ k → rstrip raw = List.replicate k '#' ++ rest →
        rest.head? ≠ some ' ' → rest.head? ≠ some '#' →
      processLine s raw = ⟨s.blocks, s.para ++ [rstrip raw]⟩) := by
  refine ⟨?_, ?_, ?_, ?_, ?_, ?_⟩
  · intro h
    simp only [processLine, h, if_true, flushPara_para]
  · intro h
    obtain ⟨t, hline⟩ := (isPrefixOf_iff_ex hp2 (rstrip raw)).mp h
    have h1 : hp1.isPrefixOf (rstrip raw) = false := by
      rw [hline]
      exact sw1_hash_hash _
    simp only [processLine, h1, Bool.false_eq_true, if_false, h, if_true, flushPara_para]
  · intro h
    obtain ⟨t, hline⟩ := (isPrefixOf_iff_ex hp3 (rstrip raw)).mp h
    have h1 : hp1.isPrefixOf (rstrip raw) = false := by
      rw [hline]
      exact sw1_hash_hash _
    have h2 : hp2.isPrefixOf (rstrip raw) = false := by
      rw [hline]
      exact sw2_three_hash _
    simp only [processLine, h1, h2, Bool.false_eq_true, if_false, h, if_true, flushPara_para]
  · exact processLine_plain s raw
  · intro h
    obtain ⟨t, hline⟩ := (isPrefixOf_iff_ex (List.replicate 4 '#') (rstrip raw)).mp h
    have hline4 : rstrip raw = '#' :: '#' :: '#' :: '#' :: t := hline
    refine processLine_plain s raw ?_ ?_ ?_ ?_
    · rw [hline4]; simp
    · rw [hline4]; exact sw1_hash_hash _
    · rw [hline4]; exact sw2_three_hash _
    · rw [hline4]; exact sw3_four_hash _
  · intro k rest hk hline hsp hha
    obtain ⟨hs1, hs2, hs3⟩ := hash_run_no_space k rest hk hsp hha
    refine processLine_plain s raw ?_ ?_ ?_ ?_
    · rw [hline]
      rcases k with _ | k
      · omega
      · simp [List.replicate_succ]
    · rw [hline]; exact hs1
    · rw [hline]; exact hs2
    · rw [hline]; exact hs3

/-- Witness for C4: a concrete `"## hi"` line is emitted as a level-2 heading
with text `"hi"`, and a concrete `"####higher"` line is buffered as plain
text. -/
theorem claim_C4_witness :
    processLine ⟨[], []⟩ ['#', '#', ' ', 'h', 'i'] = ⟨[Block.heading 2 ['h', 'i']], []⟩
    ∧ processLine ⟨[], []⟩ ['#', '#', '#', '#', 'h'] =
        ⟨[], [['#', '#', '#', '#', 'h']]⟩ := by
  constructor
  · rw [(claim_C4 ⟨[], []⟩ ['#', '#', ' ', 'h', 'i']).2.1 (by decide)]
    decide
  · rw [(claim_C4 ⟨[], []⟩ ['#', '#', '#', '#', 'h']).2.2.2.2.1 (by decide)]
    decide

/-! C1: truncation reaches only paragraph blocks; headings are emitted
untruncated. -/

theorem cpb_len {t p : Str} (h : create_paragraph_block t = Block.paragraph p) :
    p.length ≤ 2000 := by
  unfold create_paragraph_block at h
  split at h
  · injection h with h1
    subst h1
    rw [List.length_append, List.length_take]
    simp only [List.length_cons, List.length_nil]
    omega
  · injection h with h1
    subst h1
    omega

theorem flushPara_paras_le {s : ConvState}
    (hs : ∀ p, Block.paragraph p ∈ s.blocks → p.length ≤ 2000) :
    ∀ p, Block.paragraph p ∈ (flushPara s).blocks → p.length ≤ 2000 := by
  rcases h : s.para with _ | ⟨a, l⟩
  · simpa [flushPara, h] using hs
  · intro p hp
    simp only [flushPara, h] at hp
    rcases List.mem_append.mp hp with h1 | h2
    · exact hs p h1
    · exact cpb_len (List.mem_singleton.mp h2).symm

theorem processLine_paras_le {s : ConvState} (raw : Str)
    (hs : ∀ p, Block.paragraph p ∈ s.blocks → p.length ≤ 2000) :
    ∀ p, Block.paragraph p ∈ (processLine s raw).blocks → p.length ≤ 2000 := by
  intro p hp
  simp only [processLine] at hp
  split at hp
  · rcases List.mem_append.mp hp with h1 | h2
    · exact flushPara_paras_le hs p h1
    · cases List.mem_singleton.mp h2
  · split at hp
    · rcases List.mem_append.mp hp with h1 | h2
      · exact flushPara_paras_le hs p h1
      · cases List.mem_singleton.mp h2
    · split at hp
      · rcases List.mem_append.mp hp with h1 | h2
        · exact flushPara_paras_le hs p h1
        · cases List.mem_singleton.mp h2
      · split at hp
        · exact flushPara_paras_le hs p hp
        · exact hs p hp

theorem foldl_paras_le (ls : List Str) : ∀ (s : ConvState),
    (∀ p, Block.paragraph p ∈ s.blocks → p.length ≤ 2000) →
    ∀ p, Block.paragraph p ∈ (ls.foldl processLine s).blocks → p.length ≤ 2000 := by
  induction ls with
  | nil => intro s hs; simpa using hs
  | cons l rest ih =>
    intro s hs
    exact ih (processLine s l) (processLine_paras_le l hs)

/-- Claim C1 (amended): truncation is applied at block-construction time only
to paragraph blocks — every emitted paragraph's text has length at most 2000,
and text longer than 2000 characters is cut to its first 1997 characters plus
`...`; heading text is not subject to truncation (see the counterexample). -/
theorem claim_C1 (content p : Str) :
    (Block.paragraph p ∈ markdown_to_blocks content → p.length ≤ 2000)
    ∧ (2000 < p.length →
        create_paragraph_block p = Block.paragraph (p.take 1997 ++ ['.', '.', '.'])) := by
  constructor
  · intro hp
    unfold markdown_to_blocks at hp
    split at hp
    · cases hp
    · exact flushPara_paras_le (foldl_paras_le _ _ (by simp)) p hp
  · intro h
    simp [create_paragraph_block, h]

/-- Witness for C1 (amended): a short concrete input produces a paragraph
within the cap, and a concrete overlong string is cut to 1997 characters plus
an ellipsis by `create_paragraph_block`. -/
theorem claim_C1_witness :
    Block.paragraph ['h', 'i'] ∈ markdown_to_blocks ['h', 'i']
    ∧ (['h', 'i'] : Str).length ≤ 2000
    ∧ create_paragraph_block (List.replicate 2001 'b') =
        Block.paragraph ((List.replicate 2001 'b').take 1997 ++ ['.', '.', '.']) :=
  ⟨by decide,
   (claim_C1 ['h', 'i'] ['h', 'i']).1 (by decide),
   (claim_C1 [] (List.replicate 2001 'b')).2 (by rw [List.length_replicate]; omega)⟩

/-- Evaluation helper: a newline-free, non-blank input is processed as the
single line it consists of. -/
theorem markdown_single_line (t : Str) (hnl : ¬ '\n' ∈ t) (hne : strip t ≠ []) :
    markdown_to_blocks t = (flushPara (processLine ⟨[], []⟩ t)).blocks := by
  unfold markdown_to_blocks
  rw [if_neg hne, splitNL_no_nl hnl]
  rfl

/-- Counterexample to claim C1 as stated: the input consisting of `"# "`
followed by 2001 letters is converted to a single level-1 heading whose text
keeps all 2001 characters — an emitted block's text exceeds 2000 characters,
so truncation is not applied to heading blocks. -/
theorem claim_C1_counterexample :
    markdown_to_blocks ('#' :: ' ' :: List.replicate 2001 'a') =
      [Block.heading 1 (List.replicate 2001 'a')]
    ∧ 2000 < (List.replicate 2001 'a' : Str).length := by
  have hsplit : ('#' :: ' ' :: List.replicate 2001 'a' : Str) =
      ('#' :: ' ' :: List.replicate 2000 'a') ++ ['a'] := by
    rw [show (2001 : Nat) = 2000 + 1 from rfl, List.replicate_succ']
    rfl
  have hr : rstrip ('#' :: ' ' :: List.replicate 2001 'a') =
      '#' :: ' ' :: List.replicate 2001 'a' := by
    rw [hsplit]
    exact rstrip_eq_self_of_last (by decide)
  have hnl : ¬ '\n' ∈ ('#' :: ' ' :: List.replicate 2001 'a' : Str) := by
    intro h
    rcases List.mem_cons.mp h with h1 | h2
    · exact absurd h1 (by decide)
    rcases List.mem_cons.mp h2 with h3 | h4
    · exact absurd h3 (by decide)
    · exact absurd (List.eq_of_mem_replicate h4) (by decide)
  have hstrip : strip ('#' :: ' ' :: List.replicate 2001 'a') ≠ [] :=
    strip_ne_nil_of_mem (List.mem_cons_self _ _) (by decide)
  constructor
  · rw [markdown_single_line _ hnl hstrip]
    have hsw : hp1.isPrefixOf (rstrip ('#' :: ' ' :: List.replicate 2001 'a')) = true := by
      rw [hr]
      simp [hp1, List.isPrefixOf]
    have hpl : processLine ⟨[], []⟩ ('#' :: ' ' :: List.replicate 2001 'a') =
        ⟨[Block.heading 1 (List.replicate 2001 'a')], []⟩ := by
      simp only [processLine, hsw, if_true, hr]
      rfl
    rw [hpl]
    rfl
  · rw [List.length_replicate]
    omega

/-! C5: a single overlong paragraph is truncated — provided per-line
trailing-whitespace stripping does not already shrink it below the cap. -/

theorem isHeadingLine_false_parts {l : Str} (h : isHeadingLine l = false) :
    hp1.isPrefixOf l = false ∧ hp2.isPrefixOf l = false ∧ hp3.isPrefixOf l = false := by
  unfold isHeadingLine at h
  simp only [Bool.or_eq_false_iff] at h
  exact ⟨h.1.1, h.1.2, h.2⟩

theorem plain_lines_fold : ∀ (ls : List Str) (B : List Block) (P : List Str),
    (∀ l ∈ ls, rstrip l = l ∧ l ≠ [] ∧ isHeadingLine l = false) →
    ls.foldl processLine ⟨B, P⟩ = ⟨B, P ++ ls⟩ := by
  intro ls
  induction ls with
  | nil => intro B P _; simp
  | cons l rest ih =>
    intro B P h
    obtain ⟨hr, hne, hh⟩ := h l (List.mem_cons_self _ _)
    obtain ⟨h1, h2, h3⟩ := isHeadingLine_false_parts hh
    have hstep : processLine ⟨B, P⟩ l = ⟨B, P ++ [l]⟩ := by
      have hp := processLine_plain ⟨B, P⟩ l (by rw [hr]; exact hne)
        (by rw [hr]; exact h1) (by rw [hr]; exact h2) (by rw [hr]; exact h3)
      rw [hp, hr]
    rw [List.foldl_cons, hstep,
      ih B (P ++ [l]) (fun x hx => h x (List.mem_cons_of_mem _ hx))]
    simp

/-- Claim C5 (amended): for text longer than 2000 characters forming a single
paragraph — every line non-blank, not a heading, and carrying no trailing
whitespace (without this last condition the claim fails, see the
counterexample) — the converter emits exactly one paragraph block holding the
first 1997 characters followed by `...`, of total length 2000. -/
theorem claim_C5 (t : Str) (hlen : 2000 < t.length)
    (hl : ∀ l ∈ splitNL t, rstrip l = l ∧ l ≠ [] ∧ isHeadingLine l = false) :
    markdown_to_blocks t = [Block.paragraph (t.take 1997 ++ ['.', '.', '.'])]
    ∧ (t.take 1997 ++ ['.', '.', '.']).length = 2000 := by
  constructor
  · obtain ⟨hr0, hne0, _⟩ := hl ((splitNLx t).1) (List.mem_cons_self _ _)
    rcases List.eq_nil_or_concat ((splitNLx t).1) with hnil | ⟨ys, c, hconc⟩
    · exact absurd hnil hne0
    rw [List.concat_eq_append] at hconc
    have hcw : c.isWhitespace = false := rstrip_eq_self_last_not_ws hr0 hconc
    have hcint : c ∈ t :=
      mem_splitNL_chars (List.mem_cons_self _ _) c
        (by rw [hconc]; exact List.mem_append_right _ (List.mem_singleton.mpr rfl))
    have hstrip : strip t ≠ [] := strip_ne_nil_of_mem hcint hcw
    unfold markdown_to_blocks
    rw [if_neg hstrip, plain_lines_fold (splitNL t) [] [] hl]
    have hfl : flushPara ⟨[], [] ++ splitNL t⟩ =
        ⟨[create_paragraph_block (joinNL (splitNL t))], []⟩ := rfl
    rw [hfl, joinNL_splitNL]
    unfold create_paragraph_block
    rw [if_pos hlen]
  · simp only [List.length_append, List.length_take, List.length_cons, List.length_nil]
    omega

/-- Witness for C5 (amended): 2001 letters with no whitespace and no newline
produce the single truncated paragraph. -/
theorem claim_C5_witness :
    markdown_to_blocks (List.replicate 2001 'a') =
      [Block.paragraph ((List.replicate 2001 'a').take 1997 ++ ['.', '.', '.'])] := by
  have hlen : 2000 < (List.replicate 2001 'a' : Str).length := by
    rw [List.length_replicate]
    omega
  have hnl : ¬ '\n' ∈ (List.replicate 2001 'a' : Str) := by
    intro h
    exact absurd (List.eq_of_mem_replicate h) (by decide)
  have hsingle : splitNL (List.replicate 2001 'a') = [List.replicate 2001 'a'] :=
    splitNL_no_nl hnl
  have hrs : rstrip (List.replicate 2001 'a') = List.replicate 2001 'a' := by
    rw [show (2001 : Nat) = 2000 + 1 from rfl, List.replicate_succ']
    exact rstrip_eq_self_of_last (by decide)
  have hhead : isHeadingLine (List.replicate 2001 'a') = false := by
    rw [show (2001 : Nat) = 2000 + 1 from rfl, List.replicate_succ]
    simp [isHeadingLine, hp1, hp2, hp3, List.isPrefixOf,
      show (('#' : Char) == 'a') = false from by decide]
  have hl : ∀ l ∈ splitNL (List.replicate 2001 'a'),
      rstrip l = l ∧ l ≠ [] ∧ isHeadingLine l = false := by
    intro l hlmem
    rw [hsingle] at hlmem
    rcases List.mem_singleton.mp hlmem with rfl
    refine ⟨hrs, ?_, hhead⟩
    rw [show (2001 : Nat) = 2000 + 1 from rfl, List.replicate_succ]
    exact List.cons_ne_nil _ _
  exact (claim_C5 (List.replicate 2001 'a') hlen hl).1

theorem rstrip_append_ws {ys : Str} {c : Char} (h : c.isWhitespace = true) :
    rstrip (ys ++ [c]) = rstrip ys := by
  unfold rstrip
  rw [List.reverse_append]
  simp [List.dropWhile_cons, h]

/-- Counterexample to claim C5 as stated: 2000 letters followed by one space
form a single non-blank, non-heading paragraph line of 2001 characters, yet
the converter emits a paragraph of exactly 2000 characters with no `...`
suffix, because the per-line trailing-whitespace strip already shortened the
line below the cap before block construction. -/
theorem claim_C5_counterexample :
    2000 < (List.replicate 2000 'a' ++ [' '] : Str).length
    ∧ splitNL (List.replicate 2000 'a' ++ [' ']) = [List.replicate 2000 'a' ++ [' ']]
    ∧ rstrip (List.replicate 2000 'a' ++ [' ']) ≠ []
    ∧ isHeadingLine (rstrip (List.replicate 2000 'a' ++ [' '])) = false
    ∧ markdown_to_blocks (List.replicate 2000 'a' ++ [' ']) =
        [Block.paragraph (List.replicate 2000 'a')]
    ∧ List.isSuffixOf ['.', '.', '.'] (List.replicate 2000 'a') = false := by
  have hrepl : (List.replicate 2000 'a' : Str) = 'a' :: List.replicate 1999 'a' := by
    rw [show (2000 : Nat) = 1999 + 1 from rfl, List.replicate_succ]
  have hrs : rstrip (List.replicate 2000 'a' ++ [' ']) = List.replicate 2000 'a' := by
    rw [rstrip_append_ws (by decide)]
    rw [show (2000 : Nat) = 1999 + 1 from rfl, List.replicate_succ']
    exact rstrip_eq_self_of_last (by decide)
  have hnl : ¬ '\n' ∈ (List.replicate 2000 'a' ++ [' '] : Str) := by
    intro h
    rcases List.mem_append.mp h with h1 | h2
    · exact absurd (List.eq_of_mem_replicate h1) (by decide)
    · exact absurd (List.mem_singleton.mp h2) (by decide)
  have hhead : isHeadingLine (List.replicate 2000 'a') = false := by
    rw [hrepl]
    simp [isHeadingLine, hp1, hp2, hp3, List.isPrefixOf,
      show (('#' : Char) == 'a') = false from by decide]
  refine ⟨?_, splitNL_no_nl hnl, ?_, ?_, ?_, ?_⟩
  · simp only [List.length_append, List.length_replicate, List.length_cons,
      List.length_nil]
    omega
  · rw [hrs, hrepl]
    exact List.cons_ne_nil _ _
  · rw [hrs]
    exact hhead
  · have hstrip : strip (List.replicate 2000 'a' ++ [' ']) ≠ [] := by
      refine strip_ne_nil_of_mem (c := 'a') ?_ (by decide)
      rw [hrepl]
      exact List.mem_append_left _ (List.mem_cons_self _ _)
    rw [markdown_single_line _ hnl hstrip]
    obtain ⟨h1, h2, h3⟩ := isHeadingLine_false_parts
      (show isHeadingLine (rstrip (List.replicate 2000 'a' ++ [' '])) = false by
        rw [hrs]; exact hhead)
    have hne : rstrip (List.replicate 2000 'a' ++ [' ']) ≠ [] := by
      rw [hrs, hrepl]
      exact List.cons_ne_nil _ _
    have hpl := processLine_plain ⟨[], []⟩ (List.replicate 2000 'a' ++ [' ']) hne h1 h2 h3
    rw [hpl, hrs]
    have hfl : flushPara ⟨[], [] ++ [List.replicate 2000 'a']⟩ =
        ⟨[create_paragraph_block (joinNL [List.replicate 2000 'a'])], []⟩ := rfl
    rw [hfl]
    have hj : joinNL [List.replicate 2000 'a'] = List.replicate 2000 'a' := rfl
    rw [hj]
    unfold create_paragraph_block
    rw [if_neg (by rw [List.length_replicate]; omega)]
  · rw [List.isSuffixOf, List.reverse_replicate, hrepl]
    simp [List.isPrefixOf, show (('.' : Char) == 'a') = false from by decide]

/-! C6: inputs of at most 2000 characters are never truncated. -/

theorem joinNL_append : ∀ (p q : List Str), p ≠ [] → q ≠ [] →
    joinNL (p ++ q) = joinNL p ++ '\n' :: joinNL q := by
  intro p
  induction p with
  | nil => intro q h _; cases h rfl
  | cons x p' ih =>
    intro q _ hq
    rcases p' with _ | ⟨y, p''⟩
    · rcases q with _ | ⟨z, q'⟩
      · cases hq rfl
      · rfl
    · have h1 : joinNL ((x :: y :: p'') ++ q) = x ++ '\n' :: joinNL ((y :: p'') ++ q) := rfl
      rw [h1, ih q (List.cons_ne_nil _ _) hq, joinNL_cons_cons]
      simp

theorem joinNL_le_append_left (p q : List Str) :
    (joinNL p).length ≤ (joinNL (p ++ q)).length := by
  rcases p with _ | ⟨x, p'⟩
  · simp [joinNL]
  · rcases q with _ | ⟨y, q'⟩
    · simp
    · rw [joinNL_append (x :: p') (y :: q') (List.cons_ne_nil _ _) (List.cons_ne_nil _ _)]
      simp only [List.length_append, List.length_cons]
      omega

theorem joinNL_le_append_right (p q : List Str) :
    (joinNL q).length ≤ (joinNL (p ++ q)).length := by
  rcases p with _ | ⟨x, p'⟩
  · simp
  · rcases q with _ | ⟨y, q'⟩
    · simp [joinNL]
    · rw [joinNL_append (x :: p') (y :: q') (List.cons_ne_nil _ _) (List.cons_ne_nil _ _)]
      simp only [List.length_append, List.length_cons]
      omega

theorem joinNL_map_rstrip_le : ∀ (ls : List Str),
    (joinNL (ls.map rstrip)).length ≤ (joinNL ls).length := by
  intro ls
  induction ls with
  | nil => exact Nat.le_refl _
  | cons x ls' ih =>
    rcases ls' with _ | ⟨y, t⟩
    · exact rstrip_length_le x
    · have h1 : joinNL (rstrip x :: rstrip y :: List.map rstrip t) =
          rstrip x ++ '\n' :: joinNL (rstrip y :: List.map rstrip t) := rfl
      have h2 : joinNL (x :: y :: t) = x ++ '\n' :: joinNL (y :: t) := rfl
      simp only [List.map_cons] at ih ⊢
      rw [h1, h2]
      simp only [List.length_append, List.length_cons]
      have h3 := rstrip_length_le x
      omega

theorem flushParaNT_para (s : ConvState) : (flushParaNT s).para = [] := by
  rcases h : s.para with _ | ⟨a, l⟩
  · simp [flushParaNT, h]
  · simp [flushParaNT, h]

theorem processLineNT_plain (s : ConvState) (raw : Str)
    (h0 : rstrip raw ≠ [])
    (h1 : hp1.isPrefixOf (rstrip raw) = false)
    (h2 : hp2.isPrefixOf (rstrip raw) = false)
    (h3 : hp3.isPrefixOf (rstrip raw) = false) :
    processLineNT s raw = ⟨s.blocks, s.para ++ [rstrip raw]⟩ := by
  simp only [processLineNT, h1, h2, h3, Bool.false_eq_true, if_false, if_neg h0]

theorem flush_blocks_agree (B : List Block) (P : List Str)
    (h : (joinNL P).length ≤ 2000) :
    (flushPara ⟨B, P⟩).blocks = (flushParaNT ⟨B, P⟩).blocks := by
  rcases P with _ | ⟨a, l⟩
  · rfl
  · show B ++ [create_paragraph_block (joinNL (a :: l))] =
      B ++ [Block.paragraph (joinNL (a :: l))]
    simp only [create_paragraph_block]
    rw [if_neg (by omega)]

theorem noTrunc_agree : ∀ (ls : List Str) (B : List Block) (P : List Str),
    (joinNL (P ++ ls.map rstrip)).length ≤ 2000 →
    (flushPara (ls.foldl processLine ⟨B, P⟩)).blocks =
      (flushParaNT (ls.foldl processLineNT ⟨B, P⟩)).blocks := by
  intro ls
  induction ls with
  | nil =>
    intro B P h
    simp only [List.foldl_nil]
    exact flush_blocks_agree B P (by simpa using h)
  | cons l rest ih =>
    intro B P h
    have hPle : (joinNL P).length ≤ 2000 :=
      Nat.le_trans (joinNL_le_append_left P ((l :: rest).map rstrip)) h
    have hrest : (joinNL ([] ++ rest.map rstrip)).length ≤ 2000 := by
      rw [List.nil_append]
      refine Nat.le_trans ?_ h
      have : P ++ (l :: rest).map rstrip = (P ++ [rstrip l]) ++ rest.map rstrip := by
        simp [List.map_cons]
      rw [this]
      exact joinNL_le_append_right (P ++ [rstrip l]) (rest.map rstrip)
    simp only [List.foldl_cons]
    by_cases c1 : hp1.isPrefixOf (rstrip l) = true
    · have h1 : processLine ⟨B, P⟩ l =
          ⟨(flushPara ⟨B, P⟩).blocks ++ [Block.heading 1 ((rstrip l).drop 2)], []⟩ := by
        simp only [processLine, c1, if_true, flushPara_para]
      have h2 : processLineNT ⟨B, P⟩ l =
          ⟨(flushParaNT ⟨B, P⟩).blocks ++ [Block.heading 1 ((rstrip l).drop 2)], []⟩ := by
        simp only [processLineNT, c1, if_true, flushParaNT_para]
      rw [h1, h2, ← flush_blocks_agree B P hPle]
      exact ih _ [] hrest
    · by_cases c2 : hp2.isPrefixOf (rstrip l) = true
      · have h1 : processLine ⟨B, P⟩ l =
            ⟨(flushPara ⟨B, P⟩).blocks ++ [Block.heading 2 ((rstrip l).drop 3)], []⟩ := by
          simp only [processLine, c1, c2, Bool.false_eq_true, if_false, if_true,
            flushPara_para]
        have h2 : processLineNT ⟨B, P⟩ l =
            ⟨(flushParaNT ⟨B, P⟩).blocks ++ [Block.heading 2 ((rstrip l).drop 3)], []⟩ := by
          simp only [processLineNT, c1, c2, Bool.false_eq_true, if_false, if_true,
            flushParaNT_para]
        rw [h1, h2, ← flush_blocks_agree B P hPle]
        exact ih _ [] hrest
      · by_cases c3 : hp3.isPrefixOf (rstrip l) = true
        · have h1 : processLine ⟨B, P⟩ l =
              ⟨(flushPara ⟨B, P⟩).blocks ++ [Block.heading 3 ((rstrip l).drop 4)], []⟩ := by
            simp only [processLine, c1, c2, c3, Bool.false_eq_true, if_false, if_true,
              flushPara_para]
          have h2 : processLineNT ⟨B, P⟩ l =
              ⟨(flushParaNT ⟨B, P⟩).blocks ++ [Block.heading 3 ((rstrip l).drop 4)], []⟩ := by
            simp only [processLineNT, c1, c2, c3, Bool.false_eq_true, if_false, if_true,
              flushParaNT_para]
          rw [h1, h2, ← flush_blocks_agree B P hPle]
          exact ih _ [] hrest
        · by_cases c0 : rstrip l = []
          · have e1 : hp1.isPrefixOf ([] : Str) = false := rfl
            have e2 : hp2.isPrefixOf ([] : Str) = false := rfl
            have e3 : hp3.isPrefixOf ([] : Str) = false := rfl
            have h1 : processLine ⟨B, P⟩ l = flushPara ⟨B, P⟩ := by
              simp only [processLine, c0, e1, e2, e3, Bool.false_eq_true, if_false,
                eq_self_iff_true, if_true]
            have h2 : processLineNT ⟨B, P⟩ l = flushParaNT ⟨B, P⟩ := by
              simp only [processLineNT, c0, e1, e2, e3, Bool.false_eq_true, if_false,
                eq_self_iff_true, if_true]
            have h1x : processLine ⟨B, P⟩ l = ⟨(flushPara ⟨B, P⟩).blocks, []⟩ := by
              rw [h1, ← flushPara_para ⟨B, P⟩]
            have h2x : processLineNT ⟨B, P⟩ l = ⟨(flushParaNT ⟨B, P⟩).blocks, []⟩ := by
              rw [h2, ← flushParaNT_para ⟨B, P⟩]
            rw [h1x, h2x, ← flush_blocks_agree B P hPle]
            exact ih _ [] hrest
          · have hc1 : hp1.isPrefixOf (rstrip l) = false := by
              cases hx : hp1.isPrefixOf (rstrip l)
              · rfl
              · exact absurd hx c1
            have hc2 : hp2.isPrefixOf (rstrip l) = false := by
              cases hx : hp2.isPrefixOf (rstrip l)
              · rfl
              · exact absurd hx c2
            have hc3 : hp3.isPrefixOf (rstrip l) = false := by
              cases hx : hp3.isPrefixOf (rstrip l)
              · rfl
              · exact absurd hx c3
            rw [processLine_plain ⟨B, P⟩ l c0 hc1 hc2 hc3,
              processLineNT_plain ⟨B, P⟩ l c0 hc1 hc2 hc3]
            have hnext : (joinNL ((P ++ [rstrip l]) ++ rest.map rstrip)).length ≤ 2000 := by
              refine Nat.le_trans (Nat.le_of_eq ?_) h
              congr 1
              simp [List.map_cons]
            exact ih _ (P ++ [rstrip l]) hnext

/-- Claim C6: for every text of total length at most 2000 in which no line
exceeds 2000 characters, the converter never truncates: its output coincides
with the truncation-free variant, so no `...` suffix is ever appended. -/
theorem claim_C6 (t : Str) (h1 : t.length ≤ 2000)
    (_hline : ∀ l ∈ splitNL t, l.length ≤ 2000) :
    markdown_to_blocks t = markdown_to_blocks_noTrunc t := by
  unfold markdown_to_blocks markdown_to_blocks_noTrunc
  by_cases hs : strip t = []
  · rw [if_pos hs, if_pos hs]
  · rw [if_neg hs, if_neg hs]
    apply noTrunc_agree
    calc (joinNL ([] ++ (splitNL t).map rstrip)).length
        = (joinNL ((splitNL t).map rstrip)).length := by rw [List.nil_append]
      _ ≤ (joinNL (splitNL t)).length := joinNL_map_rstrip_le _
      _ = t.length := by rw [joinNL_splitNL]
      _ ≤ 2000 := h1

/-- Witness for C6 at a concrete short input. -/
theorem claim_C6_witness :
    markdown_to_blocks ['h', 'i', '\n', 'h', 'o'] =
      markdown_to_blocks_noTrunc ['h', 'i', '\n', 'h', 'o'] :=
  claim_C6 ['h', 'i', '\n', 'h', 'o'] (by decide) (by decide)

/-! C10: structural lemmas for lines of truncated paragraph text. -/

theorem splitNL_append_no_nl : ∀ (a : Str) {b : Str}, ¬ '\n' ∈ b →
    ∃ X y, splitNL a = X ++ [y] ∧ splitNL (a ++ b) = X ++ [y ++ b] := by
  intro a
  induction a with
  | nil =>
    intro b hb
    exact ⟨[], [], rfl, by simp [splitNL_no_nl hb]⟩
  | cons c a' ih =>
    intro b hb
    obtain ⟨X, y, hA, hAB⟩ := ih hb
    by_cases hc : c = '\n'
    · subst hc
      refine ⟨[] :: X, y, ?_, ?_⟩
      · rw [splitNL_cons_nl, hA]
        rfl
      · rw [List.cons_append, splitNL_cons_nl, hAB]
        rfl
    · rw [show splitNL a' = (splitNLx a').1 :: (splitNLx a').2 from rfl] at hA
      rw [show splitNL (a' ++ b) = (splitNLx (a' ++ b)).1 :: (splitNLx (a' ++ b)).2 from rfl]
        at hAB
      rcases X with _ | ⟨x0, X'⟩
      · rw [List.nil_append] at hA hAB
        injection hA with hf hs
        injection hAB with hf2 hs2
        refine ⟨[], c :: y, ?_, ?_⟩
        · rw [splitNL_cons_ne hc, hf, hs]
          rfl
        · rw [List.cons_append, splitNL_cons_ne hc, hf2, hs2]
          simp
      · rw [List.cons_append] at hA hAB
        injection hA with hf hs
        injection hAB with hf2 hs2
        refine ⟨(c :: x0) :: X', y, ?_, ?_⟩
        · rw [splitNL_cons_ne hc, hf, hs]
          rfl
        · rw [List.cons_append, splitNL_cons_ne hc, hf2, hs2]
          rfl

theorem splitNL_take : ∀ (t : Str) (k : Nat),
    ∃ n y z, splitNL (t.take k) = (splitNL t).take n ++ [y]
      ∧ (splitNL t)[n]? = some z ∧ ∃ w, z = y ++ w := by
  intro t
  induction t with
  | nil =>
    intro k
    refine ⟨0, [], [], ?_, rfl, ⟨[], rfl⟩⟩
    simp [splitNL_nil]
  | cons c t' ih =>
    intro k
    rcases k with _ | k'
    · refine ⟨0, [], (splitNLx (c :: t')).1, by simp [splitNL_nil],
        by rw [show splitNL (c :: t') = (splitNLx (c :: t')).1 :: (splitNLx (c :: t')).2
          from rfl, List.getElem?_cons_zero],
        ⟨(splitNLx (c :: t')).1, (List.nil_append _).symm⟩⟩
    · by_cases hc : c = '\n'
      · subst hc
        obtain ⟨n, y, z, h1, h2, h3⟩ := ih k'
        refine ⟨n + 1, y, z, ?_, ?_, h3⟩
        · rw [List.take_succ_cons, splitNL_cons_nl, h1, splitNL_cons_nl]
          rfl
        · rw [splitNL_cons_nl]
          simpa using h2
      · obtain ⟨n, y, z, h1, h2, h3⟩ := ih k'
        rw [show splitNL t' = (splitNLx t').1 :: (splitNLx t').2 from rfl] at h1 h2
        rcases n with _ | m
        · rw [List.take_zero, List.nil_append] at h1
          rw [show splitNL (t'.take k') =
            (splitNLx (t'.take k')).1 :: (splitNLx (t'.take k')).2 from rfl] at h1
          injection h1 with hf hs
          have hz : (splitNLx t').1 = z := by
            rw [List.getElem?_cons_zero] at h2
            injection h2
          obtain ⟨w, hw⟩ := h3
          refine ⟨0, c :: y, c :: z, ?_, ?_, ⟨w, by rw [hw]; rfl⟩⟩
          · rw [List.take_succ_cons, splitNL_cons_ne hc, hf, hs]
            rfl
          · show (splitNL (c :: t'))[0]? = some (c :: z)
            rw [splitNL_cons_ne hc, hz, List.getElem?_cons_zero]
        · rw [List.take_succ_cons] at h1
          rw [show splitNL (t'.take k') =
            (splitNLx (t'.take k')).1 :: (splitNLx (t'.take k')).2 from rfl] at h1
          rw [List.cons_append] at h1
          injection h1 with hf hs
          refine ⟨m + 1, y, z, ?_, ?_, h3⟩
          · rw [List.take_succ_cons, splitNL_cons_ne hc, hf, hs, splitNL_cons_ne hc,
              List.take_succ_cons]
            rfl
          · show (splitNL (c :: t'))[m + 1]? = some z
            rw [splitNL_cons_ne hc]
            simpa using h2

/-- A well-formed line of a paragraph block: non-empty, no trailing
whitespace, and not beginning with a heading marker. -/
def GoodLine (l : Str) : Prop :=
  l ≠ [] ∧ rstrip l = l ∧ isHeadingLine l = false

/-- The invariant claim C10 asserts of every emitted block: heading text is
non-empty, and paragraph text splits on newline into well-formed lines. -/
def BlockGood : Block → Prop
  | Block.heading _ t => t ≠ []
  | Block.paragraph t => ∀ l ∈ splitNL t, GoodLine l

theorem headline_char_mem {p y : Str} (hlen : y.length < p.length)
    (h : p.isPrefixOf (y ++ ['.', '.', '.']) = true) : ('.' : Char) ∈ p := by
  obtain ⟨r, hr⟩ := (isPrefixOf_iff_ex _ _).mp h
  have hidx : (y ++ ['.', '.', '.'])[y.length]? = some '.' := by
    rw [List.getElem?_append_right (Nat.le_refl _)]
    simp
  rw [hr, List.getElem?_append, if_pos hlen] at hidx
  exact List.getElem?_mem hidx

theorem headline_stable {y w : Str} (h : isHeadingLine (y ++ w) = false) :
    isHeadingLine (y ++ ['.', '.', '.']) = false := by
  unfold isHeadingLine at h ⊢
  simp only [Bool.or_eq_false_iff] at h ⊢
  obtain ⟨⟨h1, h2⟩, h3⟩ := h
  refine ⟨⟨?_, ?_⟩, ?_⟩
  · by_cases hl : hp1.length ≤ y.length
    · rw [isPrefixOf_append_ge hp1 y _ w hl]
      exact h1
    · cases hx : hp1.isPrefixOf (y ++ ['.', '.', '.'])
      · rfl
      · exact absurd (headline_char_mem (by omega) hx) (by decide)
  · by_cases hl : hp2.length ≤ y.length
    · rw [isPrefixOf_append_ge hp2 y _ w hl]
      exact h2
    · cases hx : hp2.isPrefixOf (y ++ ['.', '.', '.'])
      · rfl
      · exact absurd (headline_char_mem (by omega) hx) (by decide)
  · by_cases hl : hp3.length ≤ y.length
    · rw [isPrefixOf_append_ge hp3 y _ w hl]
      exact h3
    · cases hx : hp3.isPrefixOf (y ++ ['.', '.', '.'])
      · rfl
      · exact absurd (headline_char_mem (by omega) hx) (by decide)

/-- Every line of the text built by `create_paragraph_block` from a non-empty
buffer of well-formed newline-free lines is again well-formed — also when the
joined text is truncated to 1997 characters plus `...`. -/
theorem cpb_good (p : List Str) (hne : p ≠ [])
    (h : ∀ l ∈ p, GoodLine l ∧ ¬ '\n' ∈ l) :
    BlockGood (create_paragraph_block (joinNL p)) := by
  have hsj : splitNL (joinNL p) = p := splitNL_joinNL p hne (fun l hl => (h l hl).2)
  unfold create_paragraph_block
  by_cases hlen : 2000 < (joinNL p).length
  · rw [if_pos hlen]
    show ∀ l ∈ splitNL ((joinNL p).take 1997 ++ ['.', '.', '.']), GoodLine l
    obtain ⟨n, y, z, ht1, ht2, w, hw⟩ := splitNL_take (joinNL p) 1997
    obtain ⟨X, y2, ha1, ha2⟩ := splitNL_append_no_nl ((joinNL p).take 1997)
      (b := ['.', '.', '.']) (by decide)
    have heq : X ++ [y2] = (splitNL (joinNL p)).take n ++ [y] := by
      rw [← ha1, ht1]
    have hX : X = (splitNL (joinNL p)).take n := by
      have hdl := congrArg List.dropLast heq
      simpa using hdl
    have hy : y2 = y := by
      have hgl := congrArg List.getLast? heq
      simp only [List.getLast?_concat] at hgl
      injection hgl
    intro l hl
    rw [ha2, hX, hy] at hl
    rcases List.mem_append.mp hl with hl1 | hl2
    · have hmem : l ∈ splitNL (joinNL p) := List.mem_of_mem_take hl1
      rw [hsj] at hmem
      exact (h l hmem).1
    · rcases List.mem_singleton.mp hl2 with rfl
      have hz : z ∈ splitNL (joinNL p) := List.getElem?_mem ht2
      rw [hsj] at hz
      obtain ⟨⟨hz1, hz2, hz3⟩, _⟩ := h z hz
      refine ⟨by simp, ?_, ?_⟩
      · rw [show (y ++ ['.', '.', '.'] : Str) = (y ++ ['.', '.']) ++ ['.'] by simp]
        exact rstrip_eq_self_of_last (by decide)
      · have hzh : isHeadingLine (y ++ w) = false := by
          rw [← hw]
          exact hz3
        exact headline_stable hzh
  · rw [if_neg hlen]
    show ∀ l ∈ splitNL (joinNL p), GoodLine l
    rw [hsj]
    exact fun l hl => (h l hl).1

theorem heading_text_ne {raw : Str} (hq : Str)
    (h : (hq ++ [' ']).isPrefixOf (rstrip raw) = true) :
    (rstrip raw).drop (hq.length + 1) ≠ [] := by
  obtain ⟨w, hw⟩ := (isPrefixOf_iff_ex _ _).mp h
  rw [hw]
  have hdrop : ((hq ++ [' ']) ++ w).drop (hq.length + 1) = w := by
    have hlen : (hq ++ [' ']).length = hq.length + 1 := by simp
    rw [← hlen]
    exact List.drop_left _ _
  rw [hdrop]
  intro hwnil
  subst hwnil
  rw [List.append_nil] at hw
  have hws := rstrip_last_not_ws hw
  exact absurd hws (by decide)

/-- The converter loop invariant: every emitted block is well-formed and
every buffered paragraph line is well-formed and newline-free. -/
def StateGood (s : ConvState) : Prop :=
  (∀ b ∈ s.blocks, BlockGood b) ∧ (∀ l ∈ s.para, GoodLine l ∧ ¬ '\n' ∈ l)

theorem flushPara_good {s : ConvState} (hs : StateGood s) : StateGood (flushPara s) := by
  rcases hP : s.para with _ | ⟨a, l⟩
  · have heq : flushPara s = s := by simp [flushPara, hP]
    rw [heq]
    exact hs
  · constructor
    · intro b hb
      simp only [flushPara, hP] at hb
      rcases List.mem_append.mp hb with h1 | h2
      · exact hs.1 b h1
      · rcases List.mem_singleton.mp h2 with rfl
        have hgood := cpb_good s.para (by rw [hP]; exact List.cons_ne_nil _ _) hs.2
        rw [hP] at hgood
        exact hgood
    · intro l2 hl2
      simp only [flushPara, hP] at hl2
      cases hl2

theorem processLine_good {s : ConvState} (raw : Str) (hnl : ¬ '\n' ∈ raw)
    (hs : StateGood s) : StateGood (processLine s raw) := by
  by_cases c1 : hp1.isPrefixOf (rstrip raw) = true
  · have heq : processLine s raw =
        ⟨(flushPara s).blocks ++ [Block.heading 1 ((rstrip raw).drop 2)], []⟩ := by
      simp only [processLine, c1, if_true, flushPara_para]
    rw [heq]
    refine ⟨?_, by intro l hl; cases hl⟩
    intro b hb
    rcases List.mem_append.mp hb with h1 | h2
    · exact (flushPara_good hs).1 b h1
    · rcases List.mem_singleton.mp h2 with rfl
      exact heading_text_ne ['#'] c1
  · by_cases c2 : hp2.isPrefixOf (rstrip raw) = true
    · have heq : processLine s raw =
          ⟨(flushPara s).blocks ++ [Block.heading 2 ((rstrip raw).drop 3)], []⟩ := by
        simp only [processLine, c1, c2, Bool.false_eq_true, if_false, if_true, flushPara_para]
      rw [heq]
      refine ⟨?_, by intro l hl; cases hl⟩
      intro b hb
      rcases List.mem_append.mp hb with h1 | h2
      · exact (flushPara_good hs).1 b h1
      · rcases List.mem_singleton.mp h2 with rfl
        exact heading_text_ne ['#', '#'] c2
    · by_cases c3 : hp3.isPrefixOf (rstrip raw) = true
      · have heq : processLine s raw =
            ⟨(flushPara s).blocks ++ [Block.heading 3 ((rstrip raw).drop 4)], []⟩ := by
          simp only [processLine, c1, c2, c3, Bool.false_eq_true, if_false, if_true,
            flushPara_para]
        rw [heq]
        refine ⟨?_, by intro l hl; cases hl⟩
        intro b hb
        rcases List.mem_append.mp hb with h1 | h2
        · exact (flushPara_good hs).1 b h1
        · rcases List.mem_singleton.mp h2 with rfl
          exact heading_text_ne ['#', '#', '#'] c3
      · have hc1 : hp1.isPrefixOf (rstrip raw) = false := by
          cases hx : hp1.isPrefixOf (rstrip raw)
          · rfl
          · exact absurd hx c1
        have hc2 : hp2.isPrefixOf (rstrip raw) = false := by
          cases hx : hp2.isPrefixOf (rstrip raw)
          · rfl
          · exact absurd hx c2
        have hc3 : hp3.isPrefixOf (rstrip raw) = false := by
          cases hx : hp3.isPrefixOf (rstrip raw)
          · rfl
          · exact absurd hx c3
        by_cases c0 : rstrip raw = []
        · have e1 : hp1.isPrefixOf ([] : Str) = false := rfl
          have e2 : hp2.isPrefixOf ([] : Str) = false := rfl
          have e3 : hp3.isPrefixOf ([] : Str) = false := rfl
          have heq : processLine s raw = flushPara s := by
            simp only [processLine, c0, e1, e2, e3, Bool.false_eq_true, if_false,
              eq_self_iff_true, if_true]
          rw [heq]
          exact flushPara_good hs
        · rw [processLine_plain s raw c0 hc1 hc2 hc3]
          refine ⟨hs.1, ?_⟩
          intro l hl
          rcases List.mem_append.mp hl with h1 | h2
          · exact hs.2 l h1
          · rcases List.mem_singleton.mp h2 with rfl
            refine ⟨⟨c0, rstrip_idem raw, ?_⟩, not_nl_rstrip hnl⟩
            unfold isHeadingLine
            rw [hc1, hc2, hc3]
            rfl

theorem foldl_good : ∀ (ls : List Str) (s : ConvState),
    (∀ l ∈ ls, ¬ '\n' ∈ l) → StateGood s → StateGood (ls.foldl processLine s) := by
  intro ls
  induction ls with
  | nil => intro s _ hs; exact hs
  | cons l rest ih =>
    intro s hnl hs
    exact ih (processLine s l) (fun x hx => hnl x (List.mem_cons_of_mem _ hx))
      (processLine_good l (hnl l (List.mem_cons_self _ _)) hs)

/-- Claim C10: every block the converter emits has well-formed non-empty
text — heading text contains at least one character, and the text of every
paragraph block splits on newline into non-empty lines without trailing
whitespace, none of which begins with `"# "`, `"## "` or `"### "`. -/
theorem claim_C10 (content : Str) (b : Block) (hb : b ∈ markdown_to_blocks content) :
    BlockGood b := by
  unfold markdown_to_blocks at hb
  split at hb
  · cases hb
  · exact (flushPara_good (foldl_good (splitNL content) ⟨[], []⟩
      (fun l hl => mem_splitNL_no_nl hl) ⟨by simp, by simp⟩)).1 b hb

/-- Witness for C10: the heading emitted for `"# Hi"` is well-formed
(non-empty text), obtained by instantiating the claim at that input. -/
theorem claim_C10_witness : BlockGood (Block.heading 1 ['H', 'i']) :=
  claim_C10 ['#', ' ', 'H', 'i'] (Block.heading 1 ['H', 'i']) (by decide)
